import Mathlib

/-!
Verification development for the Capsule CSV data tool (`data_tool.py`).

The tool has two row-oriented CSV pipelines:

* `clean_from_tags` : populate the Sector / Category cells of each row from
  its free-text Tags cell, via two static priority-ordered rule tables
  (`SECTOR_MAPPING`, `CATEGORY_MAPPING`).
* `enrich_from_master` : build a knowledge base from a master table
  (first-write-wins dedup on the lowercased organisation name) and fill
  empty Sector / Category cells of a target table by case-insensitive
  exact name lookup.

The embedding below models a parsed CSV row as an association list from
column name to cell value (Python's `csv.DictReader` yields a dict keyed
by the header fieldnames, in header order).  Cells are plain strings; a
key missing from the row reads as the empty string, matching
`row.get(k, '')`.  Python's `str.strip()` and `str.lower()` are modelled
character-wise (`strTrim`, `strToLower`); the tokens and cells the claims
exercise are ASCII, where these coincide with Python's behaviour.

A pipeline's return value `(output_csv_string, updated, total)` is
modelled by `PipelineResult`: `output = none` stands for the empty output
string `""`, while `output = some (fields, rows)` stands for the
serialized CSV with header line `fields` followed by `rows` — as a
string this is always non-empty, because the header line is written even
when there are no data rows.
-/

/-- Model of Python `pat in s` (substring containment): `pref` is a prefix
of `s`, character-wise. -/
def startsWithChars : List Char → List Char → Bool
  | _, [] => true
  | [], _ :: _ => false
  | c :: cs, d :: ds => c == d && startsWithChars cs ds

/-- Substring containment on character lists: some suffix of `s` starts
with `pat`.  The empty pattern is contained in every string, as in
Python. -/
def containsChars (pat : List Char) : List Char → Bool
  | [] => startsWithChars [] pat
  | c :: cs => startsWithChars (c :: cs) pat || containsChars pat cs

/-- Model of Python `pat in s` on strings. -/
def strContains (s pat : String) : Bool := containsChars pat.data s.data

/-- Model of Python `str.lower()` (character-wise; exact on ASCII). -/
def strToLower (s : String) : String := ⟨s.data.map Char.toLower⟩

/-- Model of Python `str.strip()`: drop whitespace from both ends. -/
def strTrim (s : String) : String :=
  ⟨((s.data.dropWhile Char.isWhitespace).reverse.dropWhile Char.isWhitespace).reverse⟩

/-- A parsed CSV row: association list from column name to cell value,
as produced by `csv.DictReader` (keys are the header fieldnames, unique,
in header order). -/
abbrev Row := List (String × String)

/-- Model of `row.get(k, d)` on a Python dict. -/
def rowGetD (row : Row) (k d : String) : String :=
  match row.find? (fun kv => kv.1 == k) with
  | some kv => kv.2
  | none => d

/-- Model of `row.get(k, '')`. -/
def rowGet (row : Row) (k : String) : String := rowGetD row k ""

/-- Model of `row[k] = v` on a Python dict: replace the value in place if
the key is present (dict keys are unique), else append the new binding at
the end (dict insertion order). -/
def rowSet (row : Row) (k v : String) : Row :=
  if row.any (fun kv => kv.1 == k) then
    row.map (fun kv => if kv.1 == k then (k, v) else kv)
  else row ++ [(k, v)]

/-- A rule of the static mapping tables:
`(matchToken, canonicalValue, priority)`. -/
abbrev Rule := String × String × Nat

/-- `SECTOR_MAPPING` from `data_tool.py`, in source listing order. -/
def SECTOR_MAPPING : List Rule := [
  ("Software, Media & Technology", "Software & Technology", 1),
  ("Manufacturing & Industrial", "Manufacturing & Industrial", 2),
  ("construction", "Manufacturing & Industrial", 2),
  ("Manufacturing & Distribution", "Manufacturing & Industrial", 2),
  ("Healthcare & Education", "Healthcare & Education", 3),
  ("Health & Education", "Healthcare & Education", 3),
  ("Software & Technology", "Software & Technology", 4),
  ("Business Services", "Business Services", 7),
  ("Food & Leisure", "Food & Leisure", 5),
  ("Sustainability", "Sustainability", 6)]

/-- `CATEGORY_MAPPING` from `data_tool.py`, in source listing order. -/
def CATEGORY_MAPPING : List Rule := [
  ("Corporate", "Corporate", 1),
  ("Private Equity", "Private Equity", 2),
  ("Legal Services", "Legal Services", 3),
  ("Law Firm", "Legal Services", 3),
  ("Venture and Capital Growth", "Venture and Capital Growth", 11),
  ("Financial Services", "Financial Services", 8),
  ("Wealth Manager", "Wealth Manager", 9),
  ("Accountants", "Accountants", 7),
  ("Consultancy", "Consultancy", 4),
  ("Orion Network", "Orion Network", 9),
  ("Competitor", "Competitor", 10),
  ("Debt", "Debt", 5),
  ("Equity", "Equity", 6),
  ("Other", "Other", 99)]

/-- Stable insertion of a rule into a list already sorted by ascending
priority: the new rule goes before the first rule of priority not below
its own, so rules inserted earlier from the right end up after it only
when their priority is strictly smaller. -/
def insertByPriority (x : Rule) : List Rule → List Rule
  | [] => [x]
  | y :: ys => if y.2.2 < x.2.2 then y :: insertByPriority x ys else x :: y :: ys

/-- Model of Python `sorted(mapping, key=lambda item: item[2])`: a stable
sort by ascending priority. -/
def sortByPriority (rules : List Rule) : List Rule := rules.foldr insertByPriority []

/-- `sorted_sector_mapping` computed in `clean_from_tags`. -/
def sorted_sector_mapping : List Rule := sortByPriority SECTOR_MAPPING

/-- `sorted_category_mapping` computed in `clean_from_tags`. -/
def sorted_category_mapping : List Rule := sortByPriority CATEGORY_MAPPING

/-- `valid_sectors = {item[1] for item in sorted_sector_mapping}`,
modelled as the list of canonical values (membership is all that is
used). -/
def valid_sectors : List String := sorted_sector_mapping.map (fun r => r.2.1)

/-- `valid_categories = {item[1] for item in sorted_category_mapping}`. -/
def valid_categories : List String := sorted_category_mapping.map (fun r => r.2.1)

/-- The rule-scanning loop of `_process_field_from_tags`: first rule whose
lowercased token is a substring of the lowercased Tags text wins. -/
def firstMatch : List Rule → String → Option String
  | [], _ => none
  | (tag, canonical, _) :: rest, lower_tags_str =>
    if strContains lower_tags_str (strToLower tag) then some canonical
    else firstMatch rest lower_tags_str

/-- `_process_field_from_tags(row, field_name, sorted_mapping,
valid_values, lower_tags_str)` from `data_tool.py`: returns the (possibly
updated) row together with the updated flag. -/
def process_field_from_tags (row : Row) (field_name : String)
    (sorted_mapping : List Rule) (valid_values : List String)
    (lower_tags_str : String) : Row × Bool :=
  let current_value := strTrim (rowGet row field_name)
  if current_value ∈ valid_values then (row, false)
  else
    match firstMatch sorted_mapping lower_tags_str with
    | some found_value =>
      if found_value ≠ "" ∧ found_value ≠ current_value then
        (rowSet row field_name found_value, true)
      else (row, false)
    | none => (row, false)

/-- The per-row body of the loop in `clean_from_tags`: rows with an empty
Tags cell pass through; otherwise Sector then Category are processed
against the lowercased Tags text.  Returns the row and whether it was
counted as updated. -/
def cleanRow (row : Row) : Row × Bool :=
  let tags_str := rowGet row "Tags"
  if tags_str = "" then (row, false)
  else
    let lower_tags_str := strToLower tags_str
    let s := process_field_from_tags row "Sector" sorted_sector_mapping valid_sectors lower_tags_str
    let c := process_field_from_tags s.1 "Category" sorted_category_mapping valid_categories lower_tags_str
    (c.1, s.2 || c.2)

/-- A parsed CSV table: the header fieldnames and the data rows. -/
structure Table where
  fieldnames : List String
  rows : List Row
deriving DecidableEq

/-- Result of a pipeline run, modelling the Python triple
`(output_csv_string, updated_rows_count, total_rows_count)`.
`output = none` stands for the empty string `""`; `output = some (f, rs)`
stands for the CSV serialization of header `f` and rows `rs`, which as a
string always contains at least the header line and is therefore
non-empty. -/
structure PipelineResult where
  output : Option (List String × List Row)
  updated : Nat
  total : Nat
deriving DecidableEq

/-- The output-fieldnames computation duplicated in both pipelines:
append Sector, then Category, each only when not already present. -/
def augmentFields (fields : List String) : List String :=
  let f1 := if "Sector" ∈ fields then fields else fields ++ ["Sector"]
  if "Category" ∈ f1 then f1 else f1 ++ ["Category"]

/-- `clean_from_tags` from `data_tool.py`.  The input is the parsed CSV:
`none` models an input whose `DictReader` has no fieldnames at all; a
table with `fieldnames = []` models an input whose header row is empty
(both make `if not reader.fieldnames` true). -/
def clean_from_tags (input : Option Table) : PipelineResult :=
  match input with
  | none => ⟨none, 0, 0⟩
  | some t =>
    if t.fieldnames = [] then ⟨none, 0, 0⟩
    else
      let output_fieldnames := augmentFields t.fieldnames
      let processed := t.rows.map cleanRow
      ⟨some (output_fieldnames, processed.map (fun p => p.1)),
        (processed.filter (fun p => p.2)).length,
        t.rows.length⟩

/-- The organisation key of a master row:
`row.get('Name', row.get('Organisation', '')).strip()`.  Note the Python
`dict.get` semantics: the Organisation fallback is used only when the
`Name` key is absent from the row, not when it holds an empty value. -/
def masterKey (row : Row) : String :=
  strTrim (rowGetD row "Name" (rowGetD row "Organisation" ""))

/-- A knowledge-base entry: original-casing organisation name with the
stored Sector and Category strings. -/
abbrev KBEntry := String × String × String

/-- The master-ingestion loop of `enrich_from_master`: walk the master
rows keeping the map (as an association list in insertion order) and the
set of already-seen lowercased names. -/
def buildKBAux : List Row → List KBEntry → List String → List KBEntry
  | [], acc, _ => acc
  | row :: rest, acc, seen =>
    let org_name := masterKey row
    if org_name = "" then buildKBAux rest acc seen
    else if strToLower org_name ∈ seen then buildKBAux rest acc seen
    else
      buildKBAux rest (acc ++ [(org_name, rowGet row "Sector", rowGet row "Category")])
        (seen ++ [strToLower org_name])

/-- `organisation_data_map` as built from the master rows in
`enrich_from_master` (step 1). -/
def buildKnowledgeBase (rows : List Row) : List KBEntry := buildKBAux rows [] []

/-- The per-row body of the target loop in `enrich_from_master`: look the
trimmed Organisation cell up by lowercased name
(`lower_to_original_key_map.get(org_name.lower())`, modelled as a search
for an entry with the same lowercased key — lowercased keys are unique in
the knowledge base); on a hit with a truthy (non-empty) key, fill Sector
then Category only when empty after trimming and the master value is
non-empty. -/
def enrichRow (kb : List KBEntry) (row : Row) : Row × Bool :=
  let org_name := strTrim (rowGet row "Organisation")
  match kb.find? (fun e => strToLower e.1 == strToLower org_name) with
  | none => (row, false)
  | some e =>
    if e.1 = "" then (row, false)
    else
      let s :=
        if strTrim (rowGet row "Sector") = "" ∧ e.2.1 ≠ "" then
          (rowSet row "Sector" e.2.1, true)
        else (row, false)
      let c :=
        if strTrim (rowGet s.1 "Category") = "" ∧ e.2.2 ≠ "" then
          (rowSet s.1 "Category" e.2.2, true)
        else (s.1, false)
      (c.1, s.2 || c.2)

/-- `enrich_from_master` from `data_tool.py`.  The master input is
modelled by its parsed data rows (an empty or header-less master simply
yields no rows and an empty knowledge base — that path has no early
return); the target input is modelled like the input of
`clean_from_tags`. -/
def enrich_from_master (masterRows : List Row) (target : Option Table) : PipelineResult :=
  let kb := buildKnowledgeBase masterRows
  match target with
  | none => ⟨none, 0, 0⟩
  | some t =>
    if t.fieldnames = [] then ⟨none, 0, 0⟩
    else
      let output_fieldnames := augmentFields t.fieldnames
      let processed := t.rows.map (enrichRow kb)
      ⟨some (output_fieldnames, processed.map (fun p => p.1)),
        (processed.filter (fun p => p.2)).length,
        t.rows.length⟩

/-- The fill step of the target loop in `enrich_from_master`, for a hit
entry `e`: Sector then Category are copied in only when the current cell
is empty after trimming and the master value is non-empty.  This is the
body of `enrichRow` after a successful, truthy lookup. -/
def fillFields (e : KBEntry) (row : Row) : Row × Bool :=
  let s :=
    if strTrim (rowGet row "Sector") = "" ∧ e.2.1 ≠ "" then
      (rowSet row "Sector" e.2.1, true)
    else (row, false)
  let c :=
    if strTrim (rowGet s.1 "Category") = "" ∧ e.2.2 ≠ "" then
      (rowSet s.1 "Category" e.2.2, true)
    else (s.1, false)
  (c.1, s.2 || c.2)

/-! ## The rule tables against the tables listed in the spec (C4) -/

/-- The Sector rule table exactly as the spec lists it (ascending
priority, ties kept in listed scan order).  Stated from the spec text,
for comparison with the code's sorted table. -/
def specSectorRulesAscending : List Rule := [
  ("Software, Media & Technology", "Software & Technology", 1),
  ("Manufacturing & Industrial", "Manufacturing & Industrial", 2),
  ("construction", "Manufacturing & Industrial", 2),
  ("Manufacturing & Distribution", "Manufacturing & Industrial", 2),
  ("Healthcare & Education", "Healthcare & Education", 3),
  ("Health & Education", "Healthcare & Education", 3),
  ("Software & Technology", "Software & Technology", 4),
  ("Food & Leisure", "Food & Leisure", 5),
  ("Sustainability", "Sustainability", 6),
  ("Business Services", "Business Services", 7)]

/-- The Category rule table exactly as the spec lists it; in particular
the spec maps the token "Orion Network" to canonical value
"Wealth Manager" at priority 9.  Stated from the spec text. -/
def specCategoryRulesAscending : List Rule := [
  ("Corporate", "Corporate", 1),
  ("Private Equity", "Private Equity", 2),
  ("Legal Services", "Legal Services", 3),
  ("Law Firm", "Legal Services", 3),
  ("Consultancy", "Consultancy", 4),
  ("Debt", "Debt", 5),
  ("Equity", "Equity", 6),
  ("Accountants", "Accountants", 7),
  ("Financial Services", "Financial Services", 8),
  ("Wealth Manager", "Wealth Manager", 9),
  ("Orion Network", "Wealth Manager", 9),
  ("Competitor", "Competitor", 10),
  ("Venture and Capital Growth", "Venture and Capital Growth", 11),
  ("Other", "Other", 99)]

/-- The Category table as the code actually has it: identical to the
spec's listing except that the token "Orion Network" maps to canonical
value "Orion Network" (itself), not to "Wealth Manager". -/
def specCategoryRulesAscendingAmended : List Rule := [
  ("Corporate", "Corporate", 1),
  ("Private Equity", "Private Equity", 2),
  ("Legal Services", "Legal Services", 3),
  ("Law Firm", "Legal Services", 3),
  ("Consultancy", "Consultancy", 4),
  ("Debt", "Debt", 5),
  ("Equity", "Equity", 6),
  ("Accountants", "Accountants", 7),
  ("Financial Services", "Financial Services", 8),
  ("Wealth Manager", "Wealth Manager", 9),
  ("Orion Network", "Orion Network", 9),
  ("Competitor", "Competitor", 10),
  ("Venture and Capital Growth", "Venture and Capital Growth", 11),
  ("Other", "Other", 99)]

example : cleanRow [("Tags", "construction")] =
    ([("Tags", "construction"), ("Sector", "Manufacturing & Industrial")], true) := by decide

example : cleanRow [("Tags", "Law Firm stuff"), ("Sector", "Sustainability"), ("Category", "")] =
    ([("Tags", "Law Firm stuff"), ("Sector", "Sustainability"), ("Category", "Legal Services")],
      true) := by decide

example :
    buildKnowledgeBase [[("Name", "Acme"), ("Sector", "X"), ("Category", "Y")],
      [("Name", "ACME"), ("Sector", "Z"), ("Category", "W")]] = [("Acme", "X", "Y")] := by decide

/-! ## Basic lemmas about row access and update -/

theorem find?_map_update_self (row : Row) (k v : String)
    (h : row.any (fun kv => kv.1 == k) = true) :
    (row.map (fun kv => if kv.1 == k then (k, v) else kv)).find? (fun kv => kv.1 == k)
      = some (k, v) := by
  induction row with
  | nil => simp at h
  | cons kv tl ih =>
    simp only [List.any_cons, Bool.or_eq_true] at h
    simp only [List.map_cons]
    by_cases hk : (kv.1 == k) = true
    · rw [if_pos hk, @List.find?_cons_of_pos _ (fun kv => kv.1 == k) (k, v) _ (by simp)]
    · rw [if_neg hk, @List.find?_cons_of_neg _ (fun kv => kv.1 == k) kv _ hk]
      exact ih (h.resolve_left hk)

theorem find?_map_update_other (row : Row) (k v g : String) (hne : g ≠ k) :
    (row.map (fun kv => if kv.1 == k then (k, v) else kv)).find? (fun kv => kv.1 == g)
      = row.find? (fun kv => kv.1 == g) := by
  induction row with
  | nil => rfl
  | cons kv tl ih =>
    simp only [List.map_cons]
    by_cases hk : (kv.1 == k) = true
    · have hkeq : kv.1 = k := by simpa using hk
      have h1 : (k == g) = false := beq_eq_false_iff_ne.mpr (Ne.symm hne)
      have h2 : (kv.1 == g) = false := by rw [hkeq]; exact h1
      rw [if_pos hk, @List.find?_cons_of_neg _ (fun kv => kv.1 == g) (k, v) _ (by simp [h1]),
        @List.find?_cons_of_neg _ (fun kv => kv.1 == g) kv _ (by simp [h2])]
      exact ih
    · rw [if_neg hk]
      by_cases hg : (kv.1 == g) = true
      · rw [@List.find?_cons_of_pos _ (fun kv => kv.1 == g) kv _ hg,
          @List.find?_cons_of_pos _ (fun kv => kv.1 == g) kv _ hg]
      · rw [@List.find?_cons_of_neg _ (fun kv => kv.1 == g) kv _ hg,
          @List.find?_cons_of_neg _ (fun kv => kv.1 == g) kv _ hg]
        exact ih

theorem find?_eq_none_of_not_any (row : Row) (k : String)
    (h : row.any (fun kv => kv.1 == k) = false) :
    row.find? (fun kv => kv.1 == k) = none := by
  refine List.find?_eq_none.mpr ?_
  intro x hx hpx
  have hcon : row.any (fun kv => kv.1 == k) = true := List.any_eq_true.mpr ⟨x, hx, hpx⟩
  rw [h] at hcon
  exact Bool.false_ne_true hcon

theorem rowGet_rowSet_self (row : Row) (k v : String) :
    rowGet (rowSet row k v) k = v := by
  unfold rowSet
  by_cases h : row.any (fun kv => kv.1 == k) = true
  · rw [if_pos h]
    unfold rowGet rowGetD
    rw [find?_map_update_self row k v h]
  · rw [if_neg h]
    unfold rowGet rowGetD
    rw [List.find?_append, find?_eq_none_of_not_any row k (Bool.eq_false_iff.mpr h)]
    simp

theorem rowGet_rowSet_other (row : Row) (k v g : String) (hne : g ≠ k) :
    rowGet (rowSet row k v) g = rowGet row g := by
  unfold rowSet
  by_cases h : row.any (fun kv => kv.1 == k) = true
  · rw [if_pos h]
    unfold rowGet rowGetD
    rw [find?_map_update_other row k v g hne]
  · rw [if_neg h]
    unfold rowGet rowGetD
    have h1 : (([(k, v)] : Row).find? (fun kv => kv.1 == g)) = none := by
      simp [beq_eq_false_iff_ne.mpr (Ne.symm hne)]
    rw [List.find?_append, h1]
    cases row.find? (fun kv => kv.1 == g) <;> rfl

/-! ## Lemmas about the rule scan -/

theorem firstMatch_mem {m : List Rule} {lt c : String} (h : firstMatch m lt = some c) :
    c ∈ m.map (fun r => r.2.1) := by
  induction m with
  | nil => simp [firstMatch] at h
  | cons r rest ih =>
    obtain ⟨tag, canonical, rank⟩ := r
    rw [firstMatch] at h
    by_cases hc : strContains lt (strToLower tag) = true
    · rw [if_pos hc] at h
      simp only [Option.some.injEq] at h
      simp [h]
    · rw [if_neg hc] at h
      simpa using Or.inr (ih h)

theorem firstMatch_sector_mem {lt c : String}
    (h : firstMatch sorted_sector_mapping lt = some c) : c ∈ valid_sectors := by
  unfold valid_sectors
  exact firstMatch_mem h

theorem firstMatch_category_mem {lt c : String}
    (h : firstMatch sorted_category_mapping lt = some c) : c ∈ valid_categories := by
  unfold valid_categories
  exact firstMatch_mem h

theorem valid_sectors_facts : ∀ c ∈ valid_sectors, c ≠ "" ∧ strTrim c = c := by decide

theorem valid_categories_facts : ∀ c ∈ valid_categories, c ≠ "" ∧ strTrim c = c := by decide

/-! ## Behaviour of process_field_from_tags -/

theorem pf_of_valid {row : Row} {f : String} {m : List Rule} {v : List String} {lt : String}
    (h : strTrim (rowGet row f) ∈ v) :
    process_field_from_tags row f m v lt = (row, false) := by
  simp only [process_field_from_tags]
  rw [if_pos h]

theorem pf_of_none {row : Row} {f : String} {m : List Rule} {v : List String} {lt : String}
    (h1 : strTrim (rowGet row f) ∉ v) (h2 : firstMatch m lt = none) :
    process_field_from_tags row f m v lt = (row, false) := by
  simp only [process_field_from_tags]
  rw [if_neg h1, h2]

theorem pf_of_some {row : Row} {f : String} {m : List Rule} {v : List String} {lt c : String}
    (h1 : strTrim (rowGet row f) ∉ v) (h2 : firstMatch m lt = some c)
    (h3 : c ≠ "") (h4 : c ≠ strTrim (rowGet row f)) :
    process_field_from_tags row f m v lt = (rowSet row f c, true) := by
  simp only [process_field_from_tags]
  rw [if_neg h1, h2]
  show (if c ≠ "" ∧ c ≠ strTrim (rowGet row f) then (rowSet row f c, true) else (row, false))
    = (rowSet row f c, true)
  rw [if_pos ⟨h3, h4⟩]

theorem pf_get_other {row : Row} {f : String} {m : List Rule} {v : List String} {lt g : String}
    (hg : g ≠ f) :
    rowGet (process_field_from_tags row f m v lt).1 g = rowGet row g := by
  simp only [process_field_from_tags]
  split
  · rfl
  · split
    · split
      · exact rowGet_rowSet_other row f _ g hg
      · rfl
    · rfl

theorem pf_post (row : Row) (f : String) (m : List Rule) (v : List String) (lt : String)
    (hmem : ∀ c, firstMatch m lt = some c → c ∈ v)
    (hv : ∀ c ∈ v, c ≠ "" ∧ strTrim c = c) :
    strTrim (rowGet (process_field_from_tags row f m v lt).1 f) ∈ v ∨
      ((process_field_from_tags row f m v lt).1 = row ∧ firstMatch m lt = none) := by
  by_cases h1 : strTrim (rowGet row f) ∈ v
  · rw [pf_of_valid h1]
    exact Or.inl h1
  · cases hfm : firstMatch m lt with
    | none =>
      rw [pf_of_none h1 hfm]
      exact Or.inr ⟨rfl, rfl⟩
    | some c =>
      have hc := hmem c hfm
      have hc2 := hv c hc
      have h4 : c ≠ strTrim (rowGet row f) := fun he => h1 (he ▸ hc)
      rw [pf_of_some h1 hfm hc2.1 h4]
      left
      show strTrim (rowGet (rowSet row f c) f) ∈ v
      rw [rowGet_rowSet_self, hc2.2]
      exact hc

theorem pf_second (row : Row) (f : String) (m : List Rule) (v : List String) (lt : String)
    (h : strTrim (rowGet row f) ∈ v ∨ firstMatch m lt = none) :
    process_field_from_tags row f m v lt = (row, false) := by
  by_cases h1 : strTrim (rowGet row f) ∈ v
  · exact pf_of_valid h1
  · cases h with
    | inl h2 => exact absurd h2 h1
    | inr h2 => exact pf_of_none h1 h2

/-! ## Behaviour of the per-row classifier -/

theorem cleanRow_of_tags_empty (row : Row) (ht : rowGet row "Tags" = "") :
    cleanRow row = (row, false) := by
  simp only [cleanRow]
  rw [if_pos ht]

theorem cleanRow_eq_of_tags_ne (row : Row) (ht : ¬ rowGet row "Tags" = "") :
    cleanRow row =
      ((process_field_from_tags
          (process_field_from_tags row "Sector" sorted_sector_mapping valid_sectors
            (strToLower (rowGet row "Tags"))).1
          "Category" sorted_category_mapping valid_categories
          (strToLower (rowGet row "Tags"))).1,
        (process_field_from_tags row "Sector" sorted_sector_mapping valid_sectors
            (strToLower (rowGet row "Tags"))).2
          || (process_field_from_tags
              (process_field_from_tags row "Sector" sorted_sector_mapping valid_sectors
                (strToLower (rowGet row "Tags"))).1
              "Category" sorted_category_mapping valid_categories
              (strToLower (rowGet row "Tags"))).2) := by
  simp only [cleanRow]
  rw [if_neg ht]

theorem cleanRow_frame (row : Row) (col : String) (h1 : col ≠ "Sector")
    (h2 : col ≠ "Category") : rowGet (cleanRow row).1 col = rowGet row col := by
  by_cases ht : rowGet row "Tags" = ""
  · rw [cleanRow_of_tags_empty row ht]
  · rw [cleanRow_eq_of_tags_ne row ht]
    show rowGet (process_field_from_tags _ "Category" _ _ _).1 col = _
    rw [pf_get_other h2, pf_get_other h1]

theorem cleanRow_post (row : Row) :
    (strTrim (rowGet (cleanRow row).1 "Sector") ∈ valid_sectors ∨
      firstMatch sorted_sector_mapping (strToLower (rowGet (cleanRow row).1 "Tags")) = none ∨
      rowGet (cleanRow row).1 "Tags" = "") ∧
    (strTrim (rowGet (cleanRow row).1 "Category") ∈ valid_categories ∨
      firstMatch sorted_category_mapping (strToLower (rowGet (cleanRow row).1 "Tags")) = none ∨
      rowGet (cleanRow row).1 "Tags" = "") ∧
    rowGet (cleanRow row).1 "Tags" = rowGet row "Tags" := by
  have htags : rowGet (cleanRow row).1 "Tags" = rowGet row "Tags" :=
    cleanRow_frame row "Tags" (by decide) (by decide)
  by_cases ht : rowGet row "Tags" = ""
  · refine ⟨Or.inr (Or.inr ?_), Or.inr (Or.inr ?_), htags⟩ <;> rw [htags, ht]
  · refine ⟨?_, ?_, htags⟩ <;> rw [htags]
    · -- Sector component
      have hpost := pf_post row "Sector" sorted_sector_mapping valid_sectors
        (strToLower (rowGet row "Tags")) (fun c h => firstMatch_sector_mem h)
        valid_sectors_facts
      have hgetS : rowGet (cleanRow row).1 "Sector" =
          rowGet (process_field_from_tags row "Sector" sorted_sector_mapping valid_sectors
            (strToLower (rowGet row "Tags"))).1 "Sector" := by
        rw [cleanRow_eq_of_tags_ne row ht]
        show rowGet (process_field_from_tags _ "Category" _ _ _).1 "Sector" = _
        rw [pf_get_other (by decide)]
      rw [hgetS]
      cases hpost with
      | inl h => exact Or.inl h
      | inr h => exact Or.inr (Or.inl h.2)
    · -- Category component
      have hpost := pf_post
        (process_field_from_tags row "Sector" sorted_sector_mapping valid_sectors
          (strToLower (rowGet row "Tags"))).1
        "Category" sorted_category_mapping valid_categories
        (strToLower (rowGet row "Tags")) (fun c h => firstMatch_category_mem h)
        valid_categories_facts
      have hgetC : rowGet (cleanRow row).1 "Category" =
          rowGet (process_field_from_tags
            (process_field_from_tags row "Sector" sorted_sector_mapping valid_sectors
              (strToLower (rowGet row "Tags"))).1
            "Category" sorted_category_mapping valid_categories
            (strToLower (rowGet row "Tags"))).1 "Category" := by
        rw [cleanRow_eq_of_tags_ne row ht]
      rw [hgetC]
      cases hpost with
      | inl h => exact Or.inl h
      | inr h => exact Or.inr (Or.inl h.2)

theorem cleanRow_of_post (r : Row)
    (hS : strTrim (rowGet r "Sector") ∈ valid_sectors ∨
      firstMatch sorted_sector_mapping (strToLower (rowGet r "Tags")) = none ∨
      rowGet r "Tags" = "")
    (hC : strTrim (rowGet r "Category") ∈ valid_categories ∨
      firstMatch sorted_category_mapping (strToLower (rowGet r "Tags")) = none ∨
      rowGet r "Tags" = "") :
    cleanRow r = (r, false) := by
  by_cases ht : rowGet r "Tags" = ""
  · exact cleanRow_of_tags_empty r ht
  · rw [cleanRow_eq_of_tags_ne r ht]
    have hS2 : strTrim (rowGet r "Sector") ∈ valid_sectors ∨
        firstMatch sorted_sector_mapping (strToLower (rowGet r "Tags")) = none := by
      rcases hS with h | h | h
      · exact Or.inl h
      · exact Or.inr h
      · exact absurd h ht
    have hC2 : strTrim (rowGet r "Category") ∈ valid_categories ∨
        firstMatch sorted_category_mapping (strToLower (rowGet r "Tags")) = none := by
      rcases hC with h | h | h
      · exact Or.inl h
      · exact Or.inr h
      · exact absurd h ht
    rw [pf_second r "Sector" sorted_sector_mapping valid_sectors
      (strToLower (rowGet r "Tags")) hS2]
    show ((process_field_from_tags r "Category" sorted_category_mapping valid_categories
        (strToLower (rowGet r "Tags"))).1, false
          || (process_field_from_tags r "Category" sorted_category_mapping valid_categories
            (strToLower (rowGet r "Tags"))).2) = (r, false)
    rw [pf_second r "Category" sorted_category_mapping valid_categories
      (strToLower (rowGet r "Tags")) hC2]
    rfl

theorem cleanRow_idem (row : Row) :
    cleanRow (cleanRow row).1 = ((cleanRow row).1, false) := by
  obtain ⟨hS, hC, _⟩ := cleanRow_post row
  exact cleanRow_of_post (cleanRow row).1 hS hC

/-! ## Pipeline-level helper lemmas -/

theorem augmentFields_eq (fields : List String) :
    augmentFields fields =
      fields ++ (if "Sector" ∈ fields then [] else ["Sector"])
        ++ (if "Category" ∈ fields then [] else ["Category"]) := by
  simp only [augmentFields]
  by_cases hs : "Sector" ∈ fields
  · rw [if_pos hs, if_pos hs]
    by_cases hc : "Category" ∈ fields
    · rw [if_pos hc, if_pos hc]
      simp
    · rw [if_neg hc, if_neg hc]
      simp
  · rw [if_neg hs, if_neg hs]
    by_cases hc : "Category" ∈ fields
    · have hc2 : "Category" ∈ fields ++ ["Sector"] := List.mem_append.mpr (Or.inl hc)
      rw [if_pos hc2, if_pos hc]
      simp
    · have hc2 : "Category" ∉ fields ++ ["Sector"] := by
        intro hmem
        rcases List.mem_append.mp hmem with h | h
        · exact hc h
        · simp at h
      rw [if_neg hc2, if_neg hc]

theorem mem_augmentFields_sector (fields : List String) : "Sector" ∈ augmentFields fields := by
  simp only [augmentFields]
  by_cases hs : "Sector" ∈ fields
  · rw [if_pos hs]
    split
    · exact hs
    · exact List.mem_append.mpr (Or.inl hs)
  · rw [if_neg hs]
    split
    · exact List.mem_append.mpr (Or.inr (by simp))
    · exact List.mem_append.mpr (Or.inl (List.mem_append.mpr (Or.inr (by simp))))

theorem mem_augmentFields_category (fields : List String) :
    "Category" ∈ augmentFields fields := by
  simp only [augmentFields]
  split
  · split
    · rename_i hc
      exact hc
    · exact List.mem_append.mpr (Or.inr (by simp))
  · split
    · rename_i hc
      exact hc
    · exact List.mem_append.mpr (Or.inr (by simp))

theorem augmentFields_of_mem {fields : List String} (hs : "Sector" ∈ fields)
    (hc : "Category" ∈ fields) : augmentFields fields = fields := by
  simp only [augmentFields]
  rw [if_pos hs, if_pos hc]

theorem augmentFields_ne_nil (fields : List String) : augmentFields fields ≠ [] := by
  intro h
  have := mem_augmentFields_sector fields
  rw [h] at this
  simp at this

theorem clean_from_tags_some (fields : List String) (rows : List Row) (h : fields ≠ []) :
    clean_from_tags (some ⟨fields, rows⟩) =
      ⟨some (augmentFields fields, (rows.map cleanRow).map (fun p => p.1)),
        ((rows.map cleanRow).filter (fun p => p.2)).length, rows.length⟩ := by
  simp only [clean_from_tags]
  rw [if_neg h]

theorem enrich_from_master_some (masterRows : List Row) (fields : List String)
    (rows : List Row) (h : fields ≠ []) :
    enrich_from_master masterRows (some ⟨fields, rows⟩) =
      ⟨some (augmentFields fields,
          (rows.map (enrichRow (buildKnowledgeBase masterRows))).map (fun p => p.1)),
        ((rows.map (enrichRow (buildKnowledgeBase masterRows))).filter (fun p => p.2)).length,
        rows.length⟩ := by
  simp only [enrich_from_master]
  rw [if_neg h]

/-- C1: Tag classifier per-row, per-field contract.  For every row with a
non-empty Tags cell and each field F among Sector and Category: if the
trimmed current value of F is in F's valid-value set, F is unchanged;
otherwise, if some rule of F's priority-sorted rule list matches the Tags
text (case-insensitively, as a substring), F is set to the first such
rule's canonical value; if no rule matches, F keeps its prior value. -/
theorem tag_classifier_field_contract (row : Row) (hTags : rowGet row "Tags" ≠ "") :
    ((strTrim (rowGet row "Sector") ∈ valid_sectors →
        rowGet (cleanRow row).1 "Sector" = rowGet row "Sector") ∧
      (strTrim (rowGet row "Sector") ∉ valid_sectors →
        (∀ c, firstMatch sorted_sector_mapping (strToLower (rowGet row "Tags")) = some c →
          rowGet (cleanRow row).1 "Sector" = c) ∧
        (firstMatch sorted_sector_mapping (strToLower (rowGet row "Tags")) = none →
          rowGet (cleanRow row).1 "Sector" = rowGet row "Sector"))) ∧
    ((strTrim (rowGet row "Category") ∈ valid_categories →
        rowGet (cleanRow row).1 "Category" = rowGet row "Category") ∧
      (strTrim (rowGet row "Category") ∉ valid_categories →
        (∀ c, firstMatch sorted_category_mapping (strToLower (rowGet row "Tags")) = some c →
          rowGet (cleanRow row).1 "Category" = c) ∧
        (firstMatch sorted_category_mapping (strToLower (rowGet row "Tags")) = none →
          rowGet (cleanRow row).1 "Category" = rowGet row "Category"))) := by
  have hgetS : rowGet (cleanRow row).1 "Sector" =
      rowGet (process_field_from_tags row "Sector" sorted_sector_mapping valid_sectors
        (strToLower (rowGet row "Tags"))).1 "Sector" := by
    rw [cleanRow_eq_of_tags_ne row hTags]
    show rowGet (process_field_from_tags _ "Category" _ _ _).1 "Sector" = _
    rw [pf_get_other (by decide)]
  have hgetC : rowGet (cleanRow row).1 "Category" =
      rowGet (process_field_from_tags
        (process_field_from_tags row "Sector" sorted_sector_mapping valid_sectors
          (strToLower (rowGet row "Tags"))).1
        "Category" sorted_category_mapping valid_categories
        (strToLower (rowGet row "Tags"))).1 "Category" := by
    rw [cleanRow_eq_of_tags_ne row hTags]
  have hcurC : rowGet (process_field_from_tags row "Sector" sorted_sector_mapping valid_sectors
      (strToLower (rowGet row "Tags"))).1 "Category" = rowGet row "Category" :=
    pf_get_other (by decide)
  refine ⟨⟨?_, fun hnv => ⟨?_, ?_⟩⟩, ⟨?_, fun hnv => ⟨?_, ?_⟩⟩⟩
  · intro hv
    rw [hgetS, pf_of_valid hv]
  · intro c hfm
    have hc := firstMatch_sector_mem hfm
    have hfacts := valid_sectors_facts c hc
    have hne : c ≠ strTrim (rowGet row "Sector") := fun he => hnv (he ▸ hc)
    rw [hgetS, pf_of_some hnv hfm hfacts.1 hne]
    exact rowGet_rowSet_self row "Sector" c
  · intro hfm
    rw [hgetS, pf_of_none hnv hfm]
  · intro hv
    rw [hgetC, pf_of_valid (by rw [hcurC]; exact hv), hcurC]
  · intro c hfm
    have hc := firstMatch_category_mem hfm
    have hfacts := valid_categories_facts c hc
    have hnv2 : strTrim (rowGet (process_field_from_tags row "Sector" sorted_sector_mapping
        valid_sectors (strToLower (rowGet row "Tags"))).1 "Category") ∉ valid_categories := by
      rw [hcurC]; exact hnv
    have hne : c ≠ strTrim (rowGet (process_field_from_tags row "Sector" sorted_sector_mapping
        valid_sectors (strToLower (rowGet row "Tags"))).1 "Category") := by
      rw [hcurC]; exact fun he => hnv (he ▸ hc)
    rw [hgetC, pf_of_some hnv2 hfm hfacts.1 hne]
    exact rowGet_rowSet_self _ "Category" c
  · intro hfm
    have hnv2 : strTrim (rowGet (process_field_from_tags row "Sector" sorted_sector_mapping
        valid_sectors (strToLower (rowGet row "Tags"))).1 "Category") ∉ valid_categories := by
      rw [hcurC]; exact hnv
    rw [hgetC, pf_of_none hnv2 hfm, hcurC]

/-- C1 witness: on a concrete row whose Tags cell holds
"Construction and Law Firm", the Sector cell (empty, hence not valid) is
set to the canonical value of the first matching sector rule. -/
theorem tag_classifier_field_contract_witness :
    rowGet (cleanRow [("Tags", "Construction and Law Firm")]).1 "Sector"
      = "Manufacturing & Industrial" :=
  ((tag_classifier_field_contract [("Tags", "Construction and Law Firm")]
      (by decide)).1.2 (by decide)).1 "Manufacturing & Industrial" (by decide)

/-- C3: Idempotence of the classifier.  Re-running `clean_from_tags` on
its own output changes no row and reports updated = 0 (with total equal
to the number of rows); moreover a row whose Sector and Category already
hold canonical values is left unchanged regardless of its Tags text. -/
theorem classifier_idempotent (fields : List String) (rows : List Row) (h : fields ≠ []) :
    (∀ f' rows', (clean_from_tags (some ⟨fields, rows⟩)).output = some (f', rows') →
      clean_from_tags (some ⟨f', rows'⟩) = ⟨some (f', rows'), 0, rows'.length⟩) ∧
    (∀ row ∈ rows, strTrim (rowGet row "Sector") ∈ valid_sectors →
      strTrim (rowGet row "Category") ∈ valid_categories → cleanRow row = (row, false)) := by
  constructor
  · intro f' rows' hout
    rw [clean_from_tags_some fields rows h] at hout
    have hout2 : some ((augmentFields fields, (rows.map cleanRow).map (fun p => p.1))) =
        some (f', rows') := hout
    have hpair : (augmentFields fields, (rows.map cleanRow).map (fun p => p.1)) =
        (f', rows') := Option.some.inj hout2
    have hf : f' = augmentFields fields := (congrArg Prod.fst hpair).symm
    have hr : rows' = (rows.map cleanRow).map (fun p => p.1) := (congrArg Prod.snd hpair).symm
    subst hf
    subst hr
    rw [clean_from_tags_some _ _ (augmentFields_ne_nil fields)]
    have hmap : ((rows.map cleanRow).map (fun p => p.1)).map cleanRow
        = rows.map (fun r => ((cleanRow r).1, false)) := by
      rw [List.map_map, List.map_map]
      refine List.map_congr_left ?_
      intro r _
      exact cleanRow_idem r
    have h2 : (rows.map (fun r => ((cleanRow r).1, false))).filter (fun p => p.2) = [] := by
      rw [List.filter_eq_nil_iff]
      intro a ha
      obtain ⟨r, _, rfl⟩ := List.mem_map.mp ha
      simp
    have h1 : (rows.map (fun r => ((cleanRow r).1, false))).map (fun p => p.1)
        = (rows.map cleanRow).map (fun p => p.1) := by
      rw [List.map_map, List.map_map]
      rfl
    rw [hmap, h2, h1,
      augmentFields_of_mem (mem_augmentFields_sector fields) (mem_augmentFields_category fields)]
    rfl
  · intro row _ hs hc
    exact cleanRow_of_post row (Or.inl hs) (Or.inl hc)

/-- C3 witness: the classifier output of a one-row table with Tags
"construction" is a fixed point of the classifier, with updated = 0. -/
theorem classifier_idempotent_witness :
    clean_from_tags (some ⟨["Tags", "Sector", "Category"],
        [[("Tags", "construction"), ("Sector", "Manufacturing & Industrial")]]⟩) =
      ⟨some (["Tags", "Sector", "Category"],
        [[("Tags", "construction"), ("Sector", "Manufacturing & Industrial")]]), 0, 1⟩ :=
  (classifier_idempotent ["Tags"] [[("Tags", "construction")]] (by decide)).1
    ["Tags", "Sector", "Category"]
    [[("Tags", "construction"), ("Sector", "Manufacturing & Industrial")]] (by decide)

/-- C4 counterexample: the code's Category table does not match the
spec's listing.  The code holds the rule (Orion Network → Orion Network,
priority 9) and no rule (Orion Network → Wealth Manager, 9); a Tags text
"Orion Network" therefore classifies Category to "Orion Network", not to
"Wealth Manager". -/
theorem rule_tables_orion_counterexample :
    sorted_category_mapping ≠ specCategoryRulesAscending ∧
    ("Orion Network", "Orion Network", 9) ∈ CATEGORY_MAPPING ∧
    ("Orion Network", "Wealth Manager", 9) ∉ CATEGORY_MAPPING ∧
    firstMatch sorted_category_mapping (strToLower "Orion Network") = some "Orion Network" := by
  decide

/-- C4 amended: the code's rule tables, ordered by ascending priority
with ties kept in listed scan order, are exactly the spec's tables except
that the Category rule for token "Orion Network" carries canonical value
"Orion Network" (itself) rather than "Wealth Manager", still at
priority 9. -/
theorem rule_tables_match_spec_amended :
    sorted_sector_mapping = specSectorRulesAscending ∧
    sorted_category_mapping = specCategoryRulesAscendingAmended := by
  decide

/-- C7 counterexample: on a header-only input table both pipelines return
updated = 0 and total = 0 but a NON-empty output string (the augmented
header line), not the empty output string the claim asserts. -/
theorem empty_input_counterexample :
    (clean_from_tags (some ⟨["Tags"], []⟩)).output ≠ none ∧
    (clean_from_tags (some ⟨["Tags"], []⟩)).updated = 0 ∧
    (clean_from_tags (some ⟨["Tags"], []⟩)).total = 0 ∧
    (enrich_from_master [] (some ⟨["Organisation"], []⟩)).output ≠ none := by
  decide

/-- C7 amended: an input with no header at all (and likewise one whose
header is empty) makes both pipelines return the empty output string with
updated = 0 and total = 0; a header-only input instead returns
updated = 0, total = 0 together with output consisting of the augmented
header and no data rows — a non-empty output string. -/
theorem empty_input_amended (fields : List String) (rows : List Row) (master : List Row)
    (h : fields ≠ []) :
    clean_from_tags none = ⟨none, 0, 0⟩ ∧
    enrich_from_master master none = ⟨none, 0, 0⟩ ∧
    clean_from_tags (some ⟨[], rows⟩) = ⟨none, 0, 0⟩ ∧
    enrich_from_master master (some ⟨[], rows⟩) = ⟨none, 0, 0⟩ ∧
    clean_from_tags (some ⟨fields, []⟩) = ⟨some (augmentFields fields, []), 0, 0⟩ ∧
    enrich_from_master master (some ⟨fields, []⟩) = ⟨some (augmentFields fields, []), 0, 0⟩ := by
  refine ⟨rfl, rfl, rfl, rfl, ?_, ?_⟩
  · rw [clean_from_tags_some fields [] h]
    rfl
  · rw [enrich_from_master_some master fields [] h]
    rfl

/-- C7 witness for the amended statement, at a concrete header-only
table. -/
theorem empty_input_amended_witness :
    clean_from_tags (some ⟨["Tags"], []⟩) = ⟨some (["Tags", "Sector", "Category"], []), 0, 0⟩ :=
  (empty_input_amended ["Tags"] [] [] (by decide)).2.2.2.2.1

/-- C8: Order preservation and column augmentation.  For every non-empty
input table, both pipelines emit output whose column order is the input
column order with Sector then Category appended at the end only when not
already present, whose rows are the per-row transforms of the input rows
in input order, and whose total count is the number of input data rows. -/
theorem order_preservation_and_augmentation (fields : List String) (rows : List Row)
    (master : List Row) (h : fields ≠ []) :
    (clean_from_tags (some ⟨fields, rows⟩)).output =
      some (fields ++ (if "Sector" ∈ fields then [] else ["Sector"])
          ++ (if "Category" ∈ fields then [] else ["Category"]),
        rows.map (fun row => (cleanRow row).1)) ∧
    (clean_from_tags (some ⟨fields, rows⟩)).total = rows.length ∧
    (enrich_from_master master (some ⟨fields, rows⟩)).output =
      some (fields ++ (if "Sector" ∈ fields then [] else ["Sector"])
          ++ (if "Category" ∈ fields then [] else ["Category"]),
        rows.map (fun row => (enrichRow (buildKnowledgeBase master) row).1)) ∧
    (enrich_from_master master (some ⟨fields, rows⟩)).total = rows.length := by
  refine ⟨?_, ?_, ?_, ?_⟩
  · rw [clean_from_tags_some fields rows h]
    show some (augmentFields fields, (rows.map cleanRow).map (fun p => p.1)) = _
    rw [augmentFields_eq, List.map_map]
    rfl
  · rw [clean_from_tags_some fields rows h]
  · rw [enrich_from_master_some master fields rows h]
    show some (augmentFields fields,
      (rows.map (enrichRow (buildKnowledgeBase master))).map (fun p => p.1)) = _
    rw [augmentFields_eq, List.map_map]
    rfl
  · rw [enrich_from_master_some master fields rows h]

/-- C8 witness: a concrete one-row table lacking both Sector and
Category columns gets them appended, with the row transformed in place. -/
theorem order_preservation_and_augmentation_witness :
    (clean_from_tags (some ⟨["Name", "Tags"], [[("Name", "x"), ("Tags", "")]]⟩)).output =
      some (["Name", "Tags", "Sector", "Category"], [[("Name", "x"), ("Tags", "")]]) :=
  (order_preservation_and_augmentation ["Name", "Tags"] [[("Name", "x"), ("Tags", "")]]
    [] (by decide)).1

/-- The per-row reconciler transform touches no cell outside Sector and
Category. -/
theorem enrichRow_frame (kb : List KBEntry) (row : Row) (col : String)
    (h1 : col ≠ "Sector") (h2 : col ≠ "Category") :
    rowGet (enrichRow kb row).1 col = rowGet row col := by
  simp only [enrichRow]
  split
  · rfl
  · split
    · rfl
    · split
      · split
        · show rowGet (rowSet (rowSet row "Sector" _) "Category" _) col = _
          rw [rowGet_rowSet_other _ _ _ _ h2, rowGet_rowSet_other _ _ _ _ h1]
        · show rowGet (rowSet row "Sector" _) col = _
          rw [rowGet_rowSet_other _ _ _ _ h1]
      · split
        · show rowGet (rowSet row "Category" _) col = _
          rw [rowGet_rowSet_other _ _ _ _ h2]
        · rfl

/-- C9: Frame condition.  In both pipelines, the value of every column
other than Sector and Category is carried from each input row to the
corresponding output row unchanged (stated via the column projection of
the output row list, which also fixes row order and count). -/
theorem frame_condition (fields : List String) (rows : List Row) (master : List Row)
    (col : String) (h1 : col ≠ "Sector") (h2 : col ≠ "Category") :
    (∀ outF outRows, (clean_from_tags (some ⟨fields, rows⟩)).output = some (outF, outRows) →
      outRows.map (fun r => rowGet r col) = rows.map (fun r => rowGet r col)) ∧
    (∀ outF outRows,
      (enrich_from_master master (some ⟨fields, rows⟩)).output = some (outF, outRows) →
      outRows.map (fun r => rowGet r col) = rows.map (fun r => rowGet r col)) := by
  constructor
  · intro outF outRows hout
    by_cases hf : fields = []
    · rw [hf] at hout
      exact Option.noConfusion hout
    · rw [clean_from_tags_some fields rows hf] at hout
      have hpair : (augmentFields fields, (rows.map cleanRow).map (fun p => p.1)) =
          (outF, outRows) := Option.some.inj hout
      have hr : outRows = (rows.map cleanRow).map (fun p => p.1) :=
        (congrArg Prod.snd hpair).symm
      subst hr
      rw [List.map_map, List.map_map]
      refine List.map_congr_left ?_
      intro r _
      exact cleanRow_frame r col h1 h2
  · intro outF outRows hout
    by_cases hf : fields = []
    · rw [hf] at hout
      exact Option.noConfusion hout
    · rw [enrich_from_master_some master fields rows hf] at hout
      have hpair : (augmentFields fields,
          (rows.map (enrichRow (buildKnowledgeBase master))).map (fun p => p.1)) =
          (outF, outRows) := Option.some.inj hout
      have hr : outRows = (rows.map (enrichRow (buildKnowledgeBase master))).map (fun p => p.1) :=
        (congrArg Prod.snd hpair).symm
      subst hr
      rw [List.map_map, List.map_map]
      refine List.map_congr_left ?_
      intro r _
      exact enrichRow_frame (buildKnowledgeBase master) r col h1 h2

/-- C9 witness: the Tags column survives classification of a concrete
row untouched. -/
theorem frame_condition_witness :
    ([[("Tags", "construction"), ("Sector", "Manufacturing & Industrial")]] : List Row).map
        (fun r => rowGet r "Tags")
      = ([[("Tags", "construction")]] : List Row).map (fun r => rowGet r "Tags") :=
  (frame_condition ["Tags"] [[("Tags", "construction")]] [] "Tags"
      (by decide) (by decide)).1
    ["Tags", "Sector", "Category"]
    [[("Tags", "construction"), ("Sector", "Manufacturing & Industrial")]] (by decide)

theorem cleanRow_get_sector (row : Row) (ht : ¬ rowGet row "Tags" = "") :
    rowGet (cleanRow row).1 "Sector" =
      rowGet (process_field_from_tags row "Sector" sorted_sector_mapping valid_sectors
        (strToLower (rowGet row "Tags"))).1 "Sector" := by
  rw [cleanRow_eq_of_tags_ne row ht]
  show rowGet (process_field_from_tags _ "Category" _ _ _).1 "Sector" = _
  rw [pf_get_other (by decide)]

theorem cleanRow_get_category (row : Row) (ht : ¬ rowGet row "Tags" = "") :
    rowGet (cleanRow row).1 "Category" =
      rowGet (process_field_from_tags
        (process_field_from_tags row "Sector" sorted_sector_mapping valid_sectors
          (strToLower (rowGet row "Tags"))).1
        "Category" sorted_category_mapping valid_categories
        (strToLower (rowGet row "Tags"))).1 "Category" := by
  rw [cleanRow_eq_of_tags_ne row ht]

theorem pf_sector_keeps_category (row : Row) (lt : String) :
    rowGet (process_field_from_tags row "Sector" sorted_sector_mapping valid_sectors lt).1
      "Category" = rowGet row "Category" :=
  pf_get_other (by decide)

/-- C10: The classifier writes only canonical values.  Whenever the
per-row classifier changes the Sector (respectively Category) cell, the
new value belongs to the corresponding valid-value set and in particular
is non-empty. -/
theorem classifier_writes_only_canonical (row : Row) :
    (rowGet (cleanRow row).1 "Sector" ≠ rowGet row "Sector" →
      rowGet (cleanRow row).1 "Sector" ∈ valid_sectors ∧
        rowGet (cleanRow row).1 "Sector" ≠ "") ∧
    (rowGet (cleanRow row).1 "Category" ≠ rowGet row "Category" →
      rowGet (cleanRow row).1 "Category" ∈ valid_categories ∧
        rowGet (cleanRow row).1 "Category" ≠ "") := by
  constructor
  · intro hne
    by_cases ht : rowGet row "Tags" = ""
    · rw [cleanRow_of_tags_empty row ht] at hne
      exact absurd rfl hne
    · have hget := cleanRow_get_sector row ht
      by_cases hv : strTrim (rowGet row "Sector") ∈ valid_sectors
      · rw [hget, pf_of_valid hv] at hne
        exact absurd rfl hne
      · cases hfm : firstMatch sorted_sector_mapping (strToLower (rowGet row "Tags")) with
        | none =>
          rw [hget, pf_of_none hv hfm] at hne
          exact absurd rfl hne
        | some c =>
          have hc := firstMatch_sector_mem hfm
          have hfacts := valid_sectors_facts c hc
          have hnec : c ≠ strTrim (rowGet row "Sector") := fun he => hv (he ▸ hc)
          rw [hget, pf_of_some hv hfm hfacts.1 hnec, rowGet_rowSet_self]
          exact ⟨hc, hfacts.1⟩
  · intro hne
    by_cases ht : rowGet row "Tags" = ""
    · rw [cleanRow_of_tags_empty row ht] at hne
      exact absurd rfl hne
    · have hget := cleanRow_get_category row ht
      have hcur := pf_sector_keeps_category row (strToLower (rowGet row "Tags"))
      by_cases hv : strTrim (rowGet row "Category") ∈ valid_categories
      · rw [hget, pf_of_valid (by rw [hcur]; exact hv), hcur] at hne
        exact absurd rfl hne
      · have hv2 : strTrim (rowGet (process_field_from_tags row "Sector" sorted_sector_mapping
            valid_sectors (strToLower (rowGet row "Tags"))).1 "Category") ∉ valid_categories := by
          rw [hcur]; exact hv
        cases hfm : firstMatch sorted_category_mapping (strToLower (rowGet row "Tags")) with
        | none =>
          rw [hget, pf_of_none hv2 hfm, hcur] at hne
          exact absurd rfl hne
        | some c =>
          have hc := firstMatch_category_mem hfm
          have hfacts := valid_categories_facts c hc
          have hnec : c ≠ strTrim (rowGet (process_field_from_tags row "Sector"
              sorted_sector_mapping valid_sectors (strToLower (rowGet row "Tags"))).1
              "Category") := by
            rw [hcur]; exact fun he => hv (he ▸ hc)
          rw [hget, pf_of_some hv2 hfm hfacts.1 hnec, rowGet_rowSet_self]
          exact ⟨hc, hfacts.1⟩

/-- C10 witness: classifying a row tagged "private equity fund" changes
its Category, and the freshly written value is canonical and non-empty. -/
theorem classifier_writes_only_canonical_witness :
    rowGet (cleanRow [("Tags", "private equity fund")]).1 "Category" ∈ valid_categories ∧
      rowGet (cleanRow [("Tags", "private equity fund")]).1 "Category" ≠ "" :=
  (classifier_writes_only_canonical [("Tags", "private equity fund")]).2 (by decide)

/-! ## Knowledge-base construction lemmas -/

theorem buildKBAux_cons_empty (row : Row) (rest : List Row) (acc : List KBEntry)
    (seen : List String) (h : masterKey row = "") :
    buildKBAux (row :: rest) acc seen = buildKBAux rest acc seen := by
  simp only [buildKBAux]
  rw [if_pos h]

theorem buildKBAux_cons_seen (row : Row) (rest : List Row) (acc : List KBEntry)
    (seen : List String) (h1 : ¬ masterKey row = "")
    (h2 : strToLower (masterKey row) ∈ seen) :
    buildKBAux (row :: rest) acc seen = buildKBAux rest acc seen := by
  simp only [buildKBAux]
  rw [if_neg h1, if_pos h2]

theorem buildKBAux_cons_add (row : Row) (rest : List Row) (acc : List KBEntry)
    (seen : List String) (h1 : ¬ masterKey row = "")
    (h2 : strToLower (masterKey row) ∉ seen) :
    buildKBAux (row :: rest) acc seen =
      buildKBAux rest (acc ++ [(masterKey row, rowGet row "Sector", rowGet row "Category")])
        (seen ++ [strToLower (masterKey row)]) := by
  simp only [buildKBAux]
  rw [if_neg h1, if_neg h2]

theorem buildKBAux_keys_ne (rest : List Row) :
    ∀ (acc : List KBEntry) (seen : List String), (∀ e ∈ acc, e.1 ≠ "") →
      ∀ e ∈ buildKBAux rest acc seen, e.1 ≠ "" := by
  induction rest with
  | nil => intro acc seen hacc e he; exact hacc e he
  | cons row rest ih =>
    intro acc seen hacc e he
    by_cases h1 : masterKey row = ""
    · rw [buildKBAux_cons_empty row rest acc seen h1] at he
      exact ih acc seen hacc e he
    · by_cases h2 : strToLower (masterKey row) ∈ seen
      · rw [buildKBAux_cons_seen row rest acc seen h1 h2] at he
        exact ih acc seen hacc e he
      · rw [buildKBAux_cons_add row rest acc seen h1 h2] at he
        refine ih _ _ ?_ e he
        intro x hx
        rcases List.mem_append.mp hx with hx | hx
        · exact hacc x hx
        · have : x = (masterKey row, rowGet row "Sector", rowGet row "Category") := by
            simpa using hx
          rw [this]
          exact h1

theorem buildKB_keys_ne (rows : List Row) : ∀ e ∈ buildKnowledgeBase rows, e.1 ≠ "" :=
  buildKBAux_keys_ne rows [] [] (by simp)

theorem strToLower_ne_empty {s : String} (h : s ≠ "") : strToLower s ≠ "" := by
  intro hc
  apply h
  have hd : (strToLower s).data = s.data.map Char.toLower := rfl
  rw [hc] at hd
  have hd2 : ([] : List Char) = s.data.map Char.toLower := hd
  have hnil : s.data = [] := List.map_eq_nil_iff.mp hd2.symm
  exact String.ext hnil

/-! ## Behaviour of the per-row reconciler -/

theorem enrichRow_of_none (kb : List KBEntry) (row : Row)
    (h : kb.find? (fun e =>
      strToLower e.1 == strToLower (strTrim (rowGet row "Organisation"))) = none) :
    enrichRow kb row = (row, false) := by
  simp only [enrichRow]
  rw [h]

theorem enrichRow_of_some (kb : List KBEntry) (row : Row) (e : KBEntry)
    (hf : kb.find? (fun e =>
      strToLower e.1 == strToLower (strTrim (rowGet row "Organisation"))) = some e)
    (hne : ¬ e.1 = "") :
    enrichRow kb row = fillFields e row := by
  simp only [enrichRow, fillFields]
  rw [hf]
  show (if e.1 = "" then (row, false) else _) = _
  rw [if_neg hne]

theorem fillFields_keeps_category_cur (row : Row) (e : KBEntry) :
    rowGet (if strTrim (rowGet row "Sector") = "" ∧ e.2.1 ≠ "" then
        (rowSet row "Sector" e.2.1, true)
      else (row, false)).1 "Category" = rowGet row "Category" := by
  split
  · exact rowGet_rowSet_other _ _ _ _ (by decide)
  · rfl

theorem fillFields_sector_fill (e : KBEntry) (row : Row)
    (h : strTrim (rowGet row "Sector") = "" ∧ e.2.1 ≠ "") :
    rowGet (fillFields e row).1 "Sector" = e.2.1 := by
  simp only [fillFields]
  rw [if_pos h]
  split
  · show rowGet (rowSet (rowSet row "Sector" e.2.1) "Category" e.2.2) "Sector" = e.2.1
    rw [rowGet_rowSet_other _ _ _ _ (by decide), rowGet_rowSet_self]
  · show rowGet (rowSet row "Sector" e.2.1) "Sector" = e.2.1
    rw [rowGet_rowSet_self]

theorem fillFields_sector_keep (e : KBEntry) (row : Row)
    (h : ¬ (strTrim (rowGet row "Sector") = "" ∧ e.2.1 ≠ "")) :
    rowGet (fillFields e row).1 "Sector" = rowGet row "Sector" := by
  simp only [fillFields]
  rw [if_neg h]
  split
  · show rowGet (rowSet row "Category" e.2.2) "Sector" = rowGet row "Sector"
    rw [rowGet_rowSet_other _ _ _ _ (by decide)]
  · rfl

theorem fillFields_category_fill (e : KBEntry) (row : Row)
    (h : strTrim (rowGet row "Category") = "" ∧ e.2.2 ≠ "") :
    rowGet (fillFields e row).1 "Category" = e.2.2 := by
  simp only [fillFields]
  rw [fillFields_keeps_category_cur row e, if_pos h, rowGet_rowSet_self]

theorem fillFields_category_keep (e : KBEntry) (row : Row)
    (h : ¬ (strTrim (rowGet row "Category") = "" ∧ e.2.2 ≠ "")) :
    rowGet (fillFields e row).1 "Category" = rowGet row "Category" := by
  simp only [fillFields]
  rw [fillFields_keeps_category_cur row e, if_neg h]
  exact fillFields_keeps_category_cur row e

theorem buildKBAux_find (l : String) (rest : List Row) :
    ∀ (acc : List KBEntry) (seen : List String),
      seen = acc.map (fun e => strToLower e.1) →
      (buildKBAux rest acc seen).find? (fun e => strToLower e.1 == l) =
        (acc.find? (fun e => strToLower e.1 == l)).or
          ((rest.find? (fun row =>
              !(masterKey row == "") && (strToLower (masterKey row) == l))).map
            (fun row => (masterKey row, rowGet row "Sector", rowGet row "Category"))) := by
  induction rest with
  | nil =>
    intro acc seen hinv
    show acc.find? _ = _
    cases acc.find? (fun e => strToLower e.1 == l) <;> rfl
  | cons row rest ih =>
    intro acc seen hinv
    by_cases h0 : masterKey row = ""
    · rw [buildKBAux_cons_empty row rest acc seen h0, ih acc seen hinv]
      have hpred : (!(masterKey row == "") && (strToLower (masterKey row) == l)) = false := by
        rw [h0]
        simp
      rw [@List.find?_cons_of_neg _
        (fun row => !(masterKey row == "") && (strToLower (masterKey row) == l)) row rest
        (by simp [hpred])]
    · by_cases h1 : strToLower (masterKey row) ∈ seen
      · rw [buildKBAux_cons_seen row rest acc seen h0 h1, ih acc seen hinv]
        by_cases h2 : (strToLower (masterKey row) == l) = true
        · have hl : strToLower (masterKey row) = l := by simpa using h2
          have hsome : acc.find? (fun e => strToLower e.1 == l) ≠ none := by
            intro hn
            rw [List.find?_eq_none] at hn
            rw [hinv] at h1
            obtain ⟨e, he, heq⟩ := List.mem_map.mp h1
            refine hn e he ?_
            rw [heq, hl]
            exact beq_self_eq_true l
          obtain ⟨x, hx⟩ := Option.ne_none_iff_exists'.mp hsome
          rw [hx]
          rfl
        · have h2f : (strToLower (masterKey row) == l) = false := Bool.eq_false_iff.mpr h2
          have hpred : (!(masterKey row == "") && (strToLower (masterKey row) == l)) = false := by
            rw [h2f]
            simp
          rw [@List.find?_cons_of_neg _
            (fun row => !(masterKey row == "") && (strToLower (masterKey row) == l)) row rest
            (by simp [hpred])]
      · rw [buildKBAux_cons_add row rest acc seen h0 h1,
          ih (acc ++ [(masterKey row, rowGet row "Sector", rowGet row "Category")])
            (seen ++ [strToLower (masterKey row)]) (by rw [hinv, List.map_append]; rfl),
          List.find?_append]
        by_cases h2 : (strToLower (masterKey row) == l) = true
        · have hl : strToLower (masterKey row) = l := by simpa using h2
          have hnone : acc.find? (fun e => strToLower e.1 == l) = none := by
            rw [List.find?_eq_none]
            intro x hx hpx
            apply h1
            rw [hinv]
            refine List.mem_map.mpr ⟨x, hx, ?_⟩
            have hxl : strToLower x.1 = l := by simpa using hpx
            rw [hxl, hl]
          rw [hnone]
          have hE : ([(masterKey row, rowGet row "Sector", rowGet row "Category")] :
              List KBEntry).find? (fun e => strToLower e.1 == l) =
              some (masterKey row, rowGet row "Sector", rowGet row "Category") :=
            @List.find?_cons_of_pos _ (fun e => strToLower e.1 == l)
              (masterKey row, rowGet row "Sector", rowGet row "Category") [] h2
          rw [hE]
          have hR : (row :: rest).find? (fun r => !(masterKey r == "") &&
              (strToLower (masterKey r) == l)) = some row :=
            @List.find?_cons_of_pos _
              (fun r => !(masterKey r == "") && (strToLower (masterKey r) == l)) row rest
              (by simp [h0, h2])
          rw [hR]
          rfl
        · have h2f : (strToLower (masterKey row) == l) = false := Bool.eq_false_iff.mpr h2
          have hE : ([(masterKey row, rowGet row "Sector", rowGet row "Category")] :
              List KBEntry).find? (fun e => strToLower e.1 == l) = none := by
            rw [@List.find?_cons_of_neg _ (fun e => strToLower e.1 == l)
              (masterKey row, rowGet row "Sector", rowGet row "Category") []
              (by simp [h2f])]
            rfl
          rw [hE]
          have hpredf : (!(masterKey row == "") && (strToLower (masterKey row) == l)) = false := by
            rw [h2f]
            simp
          rw [@List.find?_cons_of_neg _
            (fun r => !(masterKey r == "") && (strToLower (masterKey r) == l)) row rest
            (by simp [hpredf])]
          cases acc.find? (fun e => strToLower e.1 == l) <;> rfl

theorem buildKBAux_nodup (rest : List Row) :
    ∀ (acc : List KBEntry) (seen : List String),
      seen = acc.map (fun e => strToLower e.1) → seen.Nodup →
      ((buildKBAux rest acc seen).map (fun e => strToLower e.1)).Nodup := by
  induction rest with
  | nil =>
    intro acc seen hinv hnd
    show (acc.map _).Nodup
    rw [← hinv]
    exact hnd
  | cons row rest ih =>
    intro acc seen hinv hnd
    by_cases h0 : masterKey row = ""
    · rw [buildKBAux_cons_empty row rest acc seen h0]
      exact ih acc seen hinv hnd
    · by_cases h1 : strToLower (masterKey row) ∈ seen
      · rw [buildKBAux_cons_seen row rest acc seen h0 h1]
        exact ih acc seen hinv hnd
      · rw [buildKBAux_cons_add row rest acc seen h0 h1]
        refine ih _ _ (by rw [hinv, List.map_append]; rfl) ?_
        rw [List.nodup_append]
        refine ⟨hnd, List.nodup_singleton _, ?_⟩
        intro a ha hb
        have hab : a = strToLower (masterKey row) := by simpa using hb
        rw [hab] at ha
        exact h1 ha

/-- C5: KnowledgeBase dedup invariant.  After ingesting any master table
the knowledge base holds at most one entry per distinct lowercased
organisation name (its lowercased keys are pairwise distinct), and the
entry found for any lowercased name is exactly the one contributed by the
FIRST master row bearing that lowercased name — later duplicates never
overwrite it. -/
theorem knowledge_base_dedup (rows : List Row) :
    ((buildKnowledgeBase rows).map (fun e => strToLower e.1)).Nodup ∧
    ∀ l, (buildKnowledgeBase rows).find? (fun e => strToLower e.1 == l) =
      (rows.find? (fun row =>
          !(masterKey row == "") && (strToLower (masterKey row) == l))).map
        (fun row => (masterKey row, rowGet row "Sector", rowGet row "Category")) := by
  constructor
  · exact buildKBAux_nodup rows [] [] rfl List.nodup_nil
  · intro l
    exact buildKBAux_find l rows [] [] rfl

/-- C2: Reconciler match-and-fill contract.  The trimmed Organisation
cell is looked up in the knowledge base by lowercased exact match; an
empty or unmatched cell leaves the row unchanged; on a match, Sector and
Category are independently filled from the master entry only when the
row's value is empty after trimming and the master value is non-empty,
and an already-populated field is never overwritten. -/
theorem reconciler_match_and_fill (master : List Row) (row : Row) :
    ((buildKnowledgeBase master).find? (fun e =>
        strToLower e.1 == strToLower (strTrim (rowGet row "Organisation"))) = none →
      enrichRow (buildKnowledgeBase master) row = (row, false)) ∧
    (strTrim (rowGet row "Organisation") = "" →
      enrichRow (buildKnowledgeBase master) row = (row, false)) ∧
    (∀ e, (buildKnowledgeBase master).find? (fun e =>
        strToLower e.1 == strToLower (strTrim (rowGet row "Organisation"))) = some e →
      ((strTrim (rowGet row "Sector") = "" ∧ e.2.1 ≠ "" →
          rowGet (enrichRow (buildKnowledgeBase master) row).1 "Sector" = e.2.1) ∧
        (¬ (strTrim (rowGet row "Sector") = "" ∧ e.2.1 ≠ "") →
          rowGet (enrichRow (buildKnowledgeBase master) row).1 "Sector"
            = rowGet row "Sector") ∧
        (strTrim (rowGet row "Category") = "" ∧ e.2.2 ≠ "" →
          rowGet (enrichRow (buildKnowledgeBase master) row).1 "Category" = e.2.2) ∧
        (¬ (strTrim (rowGet row "Category") = "" ∧ e.2.2 ≠ "") →
          rowGet (enrichRow (buildKnowledgeBase master) row).1 "Category"
            = rowGet row "Category"))) := by
  refine ⟨enrichRow_of_none _ _, ?_, ?_⟩
  · intro horg
    apply enrichRow_of_none
    rw [List.find?_eq_none]
    intro e he hpe
    have hkey := buildKB_keys_ne master e he
    apply strToLower_ne_empty hkey
    have heq : strToLower e.1 = strToLower (strTrim (rowGet row "Organisation")) := by
      simpa using hpe
    rw [heq, horg]
    rfl
  · intro e hfe
    have hkey : e.1 ≠ "" := buildKB_keys_ne master e (List.mem_of_find?_eq_some hfe)
    rw [enrichRow_of_some _ _ e hfe hkey]
    exact ⟨fillFields_sector_fill e row, fillFields_sector_keep e row,
      fillFields_category_fill e row, fillFields_category_keep e row⟩

/-- C2 witness: a master row for "Acme" fills the empty Sector of a
target row whose Organisation reads "ACME" (case-insensitive exact
match), while its non-empty Category stays untouched elsewhere. -/
theorem reconciler_match_and_fill_witness :
    rowGet (enrichRow (buildKnowledgeBase
        [[("Name", "Acme"), ("Sector", "X"), ("Category", "Y")]])
        [("Organisation", "ACME"), ("Sector", ""), ("Category", "Z")]).1 "Sector" = "X" :=
  ((reconciler_match_and_fill [[("Name", "Acme"), ("Sector", "X"), ("Category", "Y")]]
      [("Organisation", "ACME"), ("Sector", ""), ("Category", "Z")]).2.2
    ("Acme", "X", "Y") (by decide)).1 ⟨by decide, by decide⟩

/-- C6 counterexample: a master row whose Name column is PRESENT but
empty and whose Organisation cell is "Acme" is skipped entirely — the
knowledge base stays empty — whereas the claim requires the key to fall
back to the Organisation value "Acme" and an entry to be created. -/
theorem master_key_counterexample :
    rowGetD [("Name", ""), ("Organisation", "Acme"), ("Sector", "X"), ("Category", "Y")]
        "Name" "missing" = "" ∧
    rowGet [("Name", ""), ("Organisation", "Acme"), ("Sector", "X"), ("Category", "Y")]
        "Organisation" = "Acme" ∧
    buildKnowledgeBase [[("Name", ""), ("Organisation", "Acme"), ("Sector", "X"),
        ("Category", "Y")]] = [] := by
  decide

/-- C6 amended: the organisation key of a master row is the trimmed value
of the Name cell whenever the Name column is present in the row — even
when that value is empty; only when the Name column is absent does the
key fall back to the trimmed Organisation cell; and a row whose key comes
out empty is skipped, contributing nothing to the knowledge base. -/
theorem master_key_selection_amended (row : Row) (rows : List Row) :
    (∀ kv, row.find? (fun kv => kv.1 == "Name") = some kv →
      masterKey row = strTrim kv.2) ∧
    (row.find? (fun kv => kv.1 == "Name") = none →
      masterKey row = strTrim (rowGet row "Organisation")) ∧
    (masterKey row = "" → buildKnowledgeBase (row :: rows) = buildKnowledgeBase rows) := by
  refine ⟨?_, ?_, ?_⟩
  · intro kv hkv
    simp only [masterKey, rowGetD]
    rw [hkv]
  · intro hnone
    simp only [masterKey, rowGetD]
    rw [hnone]
    rfl
  · intro h
    show buildKBAux (row :: rows) [] [] = buildKBAux rows [] []
    exact buildKBAux_cons_empty row rows [] [] h

/-- C6 witness for the amended statement: with a present Name column the
key is the trimmed Name value even though an Organisation cell exists. -/
theorem master_key_selection_amended_witness :
    masterKey [("Name", " Acme "), ("Organisation", "Beta")] = "Acme" := by
  have h := (master_key_selection_amended [("Name", " Acme "), ("Organisation", "Beta")] []).1
    ("Name", " Acme ") (by decide)
  exact h.trans (by decide)
